import Mathlib

/-!
Verification of the release-automation bot (`probot-release`).

This file gives a shallow embedding of the parts of the source that the
verified properties talk about:

* the dry-run gate (`isDryRun` / `shouldPerform`),
* the `RELEASE_TIMEOUT` environment parsing in `lib/index.js`,
* the tag cache (`addTag` / `removeTag` / `findTag`),
* the status evaluator (`filterLatestStatuses`),
* the release scheduler (`processTag` debouncing, as a trace semantics),
* the target dispatch of `performRelease` (`Promise.all` with per-target
  `catch`),
* the artifact-store download memoization (`downloadFile` / `downloadFiles`),
* the spawn error scrubbing (`stripEnv` / `processError`),
* the changelog parser (`parseVersion` / `findChangeset`),
* the cargo topological publish order (`getPublishOrder`).

JavaScript idioms are embedded explicitly: `undefined` becomes `Option`,
JS objects with string keys become association lists in insertion order,
promise results become `Except`, and the event loop becomes a fold over an
explicit event trace.
-/

/-! ## Dry-run gate (`isDryRun` / `shouldPerform`)

Source: `const DRY_RUN = String(process.env.DRY_RUN)` followed by exact
string comparisons.  `String(undefined)` is the string `"undefined"`. -/

/-- `String(process.env.DRY_RUN)`: an unset variable stringifies to
`"undefined"`. -/
def dryRunString (env : Option String) : String :=
  match env with
  | none => "undefined"
  | some s => s

/-- `isDryRun()` from the dry-run module:
`DRY_RUN === 'true' || DRY_RUN === '1' || DRY_RUN === 'yes'`. -/
def isDryRun (env : Option String) : Bool :=
  dryRunString env == "true" || dryRunString env == "1" || dryRunString env == "yes"

/-- `shouldPerform()` from the dry-run module: `!isDryRun()`. -/
def shouldPerform (env : Option String) : Bool :=
  !isDryRun env

/-! ## `RELEASE_TIMEOUT` (lib/index.js lines 31-32)

Source: `process.env.RELEASE_TIMEOUT === '' ? 60 : process.env.RELEASE_TIMEOUT`
and later `setTimeout(..., RELEASE_TIMEOUT * 1000)`. -/

/-- A JavaScript value as it can appear in the `RELEASE_TIMEOUT` constant:
a number, a raw environment string, or `undefined`. -/
inductive JsValue
  | num (n : Nat)
  | str (s : String)
  | undefinedValue
deriving DecidableEq, Repr

/-- The `RELEASE_TIMEOUT` constant: `60` only when the environment variable
compares `=== ''`; otherwise the raw value of `process.env.RELEASE_TIMEOUT`,
which is `undefined` when the variable is unset. -/
def releaseTimeoutValue (env : Option String) : JsValue :=
  match env with
  | some s => if s = "" then .num 60 else .str s
  | none => .undefinedValue

/-- Decimal reading of an all-digit, non-empty string; `none` otherwise. -/
def parseDecimalNat (s : String) : Option Nat :=
  if s.toList.isEmpty || !(s.toList.all Char.isDigit) then none
  else some (s.toList.foldl (fun acc c => acc * 10 + (c.toNat - 48)) 0)

/-- Numeric coercion of the values `RELEASE_TIMEOUT * 1000` can see.  We
model only the cases the constant can produce with an integral-literal
string: `Number(n) = n`, `Number("") = 0`, `Number("<digits>") = <digits>`,
and `NaN` (here `none`) for `undefined`.  Non-integral strings are not
modelled (result `none`). -/
def jsToNatValue (v : JsValue) : Option Nat :=
  match v with
  | .num n => some n
  | .undefinedValue => none
  | .str s => if s = "" then some 0 else parseDecimalNat s

/-- Delay in milliseconds passed to `setTimeout` when a release is
scheduled: `RELEASE_TIMEOUT * 1000`. -/
def scheduleDelayMs (env : Option String) : Option Nat :=
  (jsToNatValue (releaseTimeoutValue env)).map (fun n => n * 1000)

/-! ## Tag cache (lib/index.js `addTag` / `removeTag` / `findTag`) -/

/-- A cached tag: `{ref, sha}`. -/
structure Tag where
  ref : String
  sha : String
deriving DecidableEq, Repr

/-- `tags.findIndex(tag => tag.ref === ref)` followed by
`tags.splice(index, 1)` when the index is non-negative: remove the first
entry with the given ref, leave the list unchanged otherwise. -/
def removeFirstRef (tags : List Tag) (ref : String) : List Tag :=
  match tags with
  | [] => []
  | t :: rest => if t.ref = ref then rest else t :: removeFirstRef rest ref

/-- `addTag`: drop any existing entry with the same ref, then push
`{ref, sha}` at the end. -/
def addTag (tags : List Tag) (ref sha : String) : List Tag :=
  removeFirstRef tags ref ++ [⟨ref, sha⟩]

/-- `removeTag`: remove by ref; the boolean reports whether a removal
occurred. -/
def removeTag (tags : List Tag) (ref : String) : List Tag × Bool :=
  if tags.any (fun t => t.ref == ref) then (removeFirstRef tags ref, true)
  else (tags, false)

/-- `findTag`: `tags.find(tag => tag.sha === sha)`, `undefined` becoming
`none`. -/
def findTag (tags : List Tag) (sha : String) : Option Tag :=
  tags.find? (fun t => t.sha == sha)

/-- Every entry surviving `removeFirstRef tags ref` was an entry of `tags`. -/
theorem mem_of_mem_removeFirstRef {tags : List Tag} {ref : String} {t : Tag}
    (h : t ∈ removeFirstRef tags ref) : t ∈ tags := by
  induction tags with
  | nil => simp [removeFirstRef] at h
  | cons x rest ih =>
    by_cases hx : x.ref = ref
    · simp only [removeFirstRef, if_pos hx] at h
      exact List.mem_cons_of_mem _ h
    · simp only [removeFirstRef, if_neg hx, List.mem_cons] at h
      rcases h with h | h
      · exact h ▸ List.mem_cons_self _ _
      · exact List.mem_cons_of_mem _ (ih h)

/-- When the refs of `tags` are distinct, no entry with the removed ref
survives `removeFirstRef`. -/
theorem removeFirstRef_ref_ne {tags : List Tag} {ref : String}
    (hnd : (tags.map Tag.ref).Nodup) :
    ∀ t ∈ removeFirstRef tags ref, t.ref ≠ ref := by
  induction tags with
  | nil => intro t ht; simp [removeFirstRef] at ht
  | cons x rest ih =>
    simp only [List.map_cons, List.nodup_cons] at hnd
    intro t ht
    by_cases hx : x.ref = ref
    · simp only [removeFirstRef, if_pos hx] at ht
      intro hcontra
      apply hnd.1
      rw [hx, ← hcontra]
      exact List.mem_map_of_mem Tag.ref ht
    · simp only [removeFirstRef, if_neg hx, List.mem_cons] at ht
      rcases ht with rfl | ht
      · exact hx
      · exact ih hnd.2 t ht

/-- When no entry of a list has the given ref, `removeFirstRef` over an
appended singleton with that ref just drops the singleton. -/
theorem removeFirstRef_append_singleton {l : List Tag} {ref : String} (x : Tag)
    (hx : x.ref = ref) (hl : ∀ t ∈ l, t.ref ≠ ref) :
    removeFirstRef (l ++ [x]) ref = l := by
  induction l with
  | nil => simp [removeFirstRef, hx]
  | cons y rest ih =>
    have hy : y.ref ≠ ref := hl y (List.mem_cons_self _ _)
    have hrest := ih (fun t ht => hl t (List.mem_cons_of_mem _ ht))
    show removeFirstRef (y :: (rest ++ [x])) ref = y :: rest
    simp only [removeFirstRef, if_neg hy]
    rw [hrest]

/-- C10 counterexample input: a cache that already holds a different tag
pointing at the same commit. -/
def c10Cache : List Tag := [⟨"a", "X"⟩]

/-- C10: the claim is false as stated: after `addTag "b" "X"` and
`removeTag "b"`, `findTag "X"` still returns the pre-existing tag `a`
that points at the same sha, not `null`. -/
theorem findTag_after_remove_counterexample :
    findTag (removeTag (addTag c10Cache "b" "X") "b").1 "X" = some ⟨"a", "X"⟩ ∧
    some (Tag.mk "a" "X") ≠ (none : Option Tag) := by
  exact ⟨by decide, by decide⟩

/-- C10 (amended): if the cached refs are distinct (the documented cache
invariant) and no cached tag already points at `sha`, then `addTag ref sha`
followed by `removeTag ref` leaves `findTag sha = none`. -/
theorem findTag_after_addTag_removeTag (tags : List Tag) (ref sha : String)
    (hnd : (tags.map Tag.ref).Nodup) (hsha : sha ∉ tags.map Tag.sha) :
    findTag (removeTag (addTag tags ref sha) ref).1 sha = none := by
  have hclean : ∀ t ∈ removeFirstRef tags ref, t.ref ≠ ref :=
    removeFirstRef_ref_ne hnd
  have hany : (addTag tags ref sha).any (fun t => t.ref == ref) = true := by
    simp [addTag, List.any_append]
  have hrm : (removeTag (addTag tags ref sha) ref).1 = removeFirstRef tags ref := by
    unfold removeTag
    rw [if_pos hany]
    exact removeFirstRef_append_singleton ⟨ref, sha⟩ rfl hclean
  rw [hrm]
  rw [findTag, List.find?_eq_none]
  intro t ht
  have : t ∈ tags := mem_of_mem_removeFirstRef ht
  have hne : t.sha ≠ sha := by
    intro h
    exact hsha (h ▸ List.mem_map_of_mem Tag.sha this)
  simpa using hne

/-- Witness for the amended C10 theorem at a concrete cache. -/
theorem findTag_after_addTag_removeTag_witness :
    findTag (removeTag (addTag [⟨"a", "Y"⟩] "b" "X") "b").1 "X" = none :=
  findTag_after_addTag_removeTag [⟨"a", "Y"⟩] "b" "X" (by decide) (by decide)

/-! ## C2 theorems -/

/-- C2 counterexample: with `RELEASE_TIMEOUT` unset the constant is
`undefined`, not the claimed default `60`. -/
theorem release_timeout_unset_counterexample :
    releaseTimeoutValue none = JsValue.undefinedValue ∧
    releaseTimeoutValue none ≠ JsValue.num 60 := by
  exact ⟨rfl, by decide⟩

/-- C2 (amended): `RELEASE_TIMEOUT` is `60` exactly when the variable is
set to the empty string; a non-empty value is kept as the raw string (the
scheduling delay is then its numeric coercion times 1000 ms); an unset
variable yields `undefined` and no numeric delay. -/
theorem release_timeout_amended :
    releaseTimeoutValue (some "") = JsValue.num 60 ∧
    releaseTimeoutValue none = JsValue.undefinedValue ∧
    scheduleDelayMs none = none ∧
    (∀ s : String, s ≠ "" → releaseTimeoutValue (some s) = JsValue.str s) ∧
    (∀ s : String, s ≠ "" →
      scheduleDelayMs (some s) = (parseDecimalNat s).map (fun n => n * 1000)) := by
  refine ⟨rfl, rfl, rfl, ?_, ?_⟩
  · intro s hs
    simp [releaseTimeoutValue, hs]
  · intro s hs
    simp [scheduleDelayMs, releaseTimeoutValue, jsToNatValue, hs]

/-- Witness for the amended C2 theorem at the concrete value `"30"`. -/
theorem release_timeout_amended_witness :
    releaseTimeoutValue (some "30") = JsValue.str "30" ∧
    scheduleDelayMs (some "30") = some 30000 := by
  constructor
  · exact release_timeout_amended.2.2.2.1 "30" (by decide)
  · rw [release_timeout_amended.2.2.2.2 "30" (by decide)]
    decide

/-! ## C5 theorems -/

/-- C5 counterexample: the comparison is case-sensitive.  `"TRUE"` is the
upper-cased spelling of the truthy string `"true"`, so under the claim
(case-insensitive truthiness) `shouldPerform` would be `false` for both;
the code returns `true` for `"TRUE"` and `false` only for `"true"`. -/
theorem shouldPerform_case_counterexample :
    shouldPerform (some "TRUE") = true ∧
    shouldPerform (some "true") = false ∧
    "TRUE".toList.map Char.toLower = "true".toList := by
  exact ⟨by decide, by decide, by decide⟩

/-- C5 (amended): `shouldPerform()` is `false` exactly when `DRY_RUN` is
set to one of the exact strings `true`, `1`, `yes` (case-sensitive); it is
`true` otherwise, including when `DRY_RUN` is unset. -/
theorem shouldPerform_iff (env : Option String) :
    shouldPerform env = false ↔
      env = some "true" ∨ env = some "1" ∨ env = some "yes" := by
  cases env with
  | none => decide
  | some s =>
    constructor
    · intro h
      have hb : isDryRun (some s) = true := by
        cases hh : isDryRun (some s)
        · rw [shouldPerform, hh] at h; cases h
        · rfl
      simp only [isDryRun, dryRunString, Bool.or_eq_true, beq_iff_eq] at hb
      rcases hb with (h1 | h2) | h3
      · exact Or.inl (by rw [h1])
      · exact Or.inr (Or.inl (by rw [h2]))
      · exact Or.inr (Or.inr (by rw [h3]))
    · rintro (h | h | h) <;> (injection h with h; subst h; decide)

/-- Witness for the amended C5 theorem at a concrete environment. -/
theorem shouldPerform_iff_witness :
    shouldPerform (some "yes") = false :=
  (shouldPerform_iff (some "yes")).2 (Or.inr (Or.inr rfl))

/-! ## JavaScript string primitives

The source compares ISO timestamps with the JS `>` operator (code-unit
lexicographic order) and filters contexts with `String.prototype.startsWith`.
Both are embedded over the character list of the string. -/

/-- Strict code-unit lexicographic order (JS `a < b` on strings). -/
def lexLt : List Char → List Char → Bool
  | [], [] => false
  | [], _ :: _ => true
  | _ :: _, [] => false
  | a :: as, b :: bs =>
    if a.toNat < b.toNat then true
    else if b.toNat < a.toNat then false
    else lexLt as bs

/-- Reflexive code-unit lexicographic order (JS `a <= b` on strings). -/
def lexLe : List Char → List Char → Bool
  | [], _ => true
  | _ :: _, [] => false
  | a :: as, b :: bs =>
    if a.toNat < b.toNat then true
    else if b.toNat < a.toNat then false
    else lexLe as bs

/-- JS `a < b` for strings. -/
def strLt (a b : String) : Bool := lexLt a.toList b.toList

/-- JS `a <= b` for strings. -/
def strLe (a b : String) : Bool := lexLe a.toList b.toList

/-- JS `s.startsWith(pre)`. -/
def jsStartsWith (s pre : String) : Bool := pre.toList.isPrefixOf s.toList

theorem lexLe_refl : ∀ l : List Char, lexLe l l = true := by
  intro l
  induction l with
  | nil => rfl
  | cons a as ih => simp [lexLe, ih]

theorem lexLe_of_not_lexLt : ∀ a b : List Char, lexLt a b = false → lexLe b a = true := by
  intro a
  induction a with
  | nil =>
    intro b h
    cases b with
    | nil => rfl
    | cons x xs => simp [lexLt] at h
  | cons x xs ih =>
    intro b h
    cases b with
    | nil => rfl
    | cons y ys =>
      simp only [lexLt] at h
      simp only [lexLe]
      by_cases h1 : x.toNat < y.toNat
      · simp [h1] at h
      · by_cases h2 : y.toNat < x.toNat
        · simp [h2]
        · simp only [if_neg h1, if_neg h2] at h
          simp only [if_neg h2, if_neg h1]
          exact ih ys h

theorem lexLe_of_lexLt : ∀ a b : List Char, lexLt a b = true → lexLe a b = true := by
  intro a
  induction a with
  | nil => intro b _; rfl
  | cons x xs ih =>
    intro b h
    cases b with
    | nil => simp [lexLt] at h
    | cons y ys =>
      simp only [lexLt] at h
      simp only [lexLe]
      by_cases h1 : x.toNat < y.toNat
      · simp [h1]
      · by_cases h2 : y.toNat < x.toNat
        · simp [h1, h2] at h
        · simp only [if_neg h1, if_neg h2] at h
          simp only [if_neg h1, if_neg h2]
          exact ih ys h

theorem lexLe_trans :
    ∀ a b c : List Char, lexLe a b = true → lexLe b c = true → lexLe a c = true := by
  intro a
  induction a with
  | nil => intro b c _ _; rfl
  | cons x xs ih =>
    intro b c hab hbc
    cases b with
    | nil => simp [lexLe] at hab
    | cons y ys =>
      cases c with
      | nil => simp [lexLe] at hbc
      | cons z zs =>
        simp only [lexLe] at hab hbc ⊢
        by_cases hxy : x.toNat < y.toNat
        · by_cases hyz : y.toNat < z.toNat
          · have hxz : x.toNat < z.toNat := Nat.lt_trans hxy hyz
            simp [hxz]
          · by_cases hzy : z.toNat < y.toNat
            · simp [hyz, hzy] at hbc
            · have hyz2 : y.toNat = z.toNat :=
                Nat.le_antisymm (Nat.le_of_not_lt hzy) (Nat.le_of_not_lt hyz)
              have hxz : x.toNat < z.toNat := hyz2 ▸ hxy
              simp [hxz]
        · by_cases hyx : y.toNat < x.toNat
          · simp [hxy, hyx] at hab
          · have hxy2 : x.toNat = y.toNat :=
              Nat.le_antisymm (Nat.le_of_not_lt hyx) (Nat.le_of_not_lt hxy)
            simp only [if_neg hxy, if_neg hyx] at hab
            by_cases hyz : y.toNat < z.toNat
            · have hxz : x.toNat < z.toNat := hxy2 ▸ hyz
              simp [hxz]
            · by_cases hzy : z.toNat < y.toNat
              · simp [hyz, hzy] at hbc
              · simp only [if_neg hyz, if_neg hzy] at hbc
                have hxz : ¬ x.toNat < z.toNat := by rw [hxy2]; exact hyz
                have hzx : ¬ z.toNat < x.toNat := by rw [hxy2]; exact hzy
                simp only [if_neg hxz, if_neg hzx]
                exact ih ys zs hab hbc

theorem strLe_refl (a : String) : strLe a a = true := lexLe_refl _

theorem strLe_of_not_strLt (a b : String) (h : strLt a b = false) : strLe b a = true :=
  lexLe_of_not_lexLt _ _ h

theorem strLe_of_strLt (a b : String) (h : strLt a b = true) : strLe a b = true :=
  lexLe_of_lexLt _ _ h

theorem strLe_trans (a b c : String) (hab : strLe a b = true) (hbc : strLe b c = true) :
    strLe a c = true :=
  lexLe_trans _ _ _ hab hbc

/-! ## Status evaluator (lib/index.js `filterLatestStatuses`) -/

/-- A commit status check: `{context, state, updated_at}`. -/
structure StatusCheck where
  context : String
  state : String
  updated_at : String
deriving DecidableEq, Repr

/-- The parts of the repository configuration (`release.yml` merged with
defaults) that the engine inspects: `ignoredChecks` and the target list
(only the names matter here). -/
structure RepoConfig where
  ignoredChecks : List String
  targets : List String
deriving DecidableEq, Repr

/-- The filter predicate of `filterLatestStatuses`:
`!ignoredChecks.some(check => status.context.startsWith(check))`. -/
def notIgnoredChk (cfg : RepoConfig) (s : StatusCheck) : Bool :=
  !(cfg.ignoredChecks.any (fun c => jsStartsWith s.context c))

/-- `statuses.filter(status => !ignoredChecks.some(...))`. -/
def filteredStatuses (statuses : List StatusCheck) (cfg : RepoConfig) : List StatusCheck :=
  statuses.filter (notIgnoredChk cfg)

/-- One step of lodash `_.maxBy(group, status => status.updated_at)`: keep
the accumulator unless the next element is strictly larger (ties keep the
earlier element). -/
def maxStep (acc : Option StatusCheck) (s : StatusCheck) : Option StatusCheck :=
  match acc with
  | none => some s
  | some m => if strLt m.updated_at s.updated_at then some s else some m

/-- lodash `_.maxBy(group, status => status.updated_at)`. -/
def maxByUpdated (l : List StatusCheck) : Option StatusCheck :=
  l.foldl maxStep none

/-- The group of a context and its `maxBy` representative: one value of
`_.groupBy(filtered, status => status.context)` mapped through `_.maxBy`. -/
def groupMax (F : List StatusCheck) (c : String) : Option StatusCheck :=
  maxByUpdated (F.filter (fun s => s.context == c))

/-- Insert a key if not already present: the behaviour of JS object keys
(`_.groupBy` produces keys in first-occurrence order). -/
def insOnce (acc : List String) (c : String) : List String :=
  if c ∈ acc then acc else acc ++ [c]

/-- The distinct keys of `_.groupBy`, in first-occurrence order. -/
def dedupFirst (l : List String) : List String := l.foldl insOnce []

/-- `filterLatestStatuses(statuses, config)`: drop ignored contexts, group
by context, keep the `maxBy updated_at` element of every group. -/
def filterLatestStatuses (statuses : List StatusCheck) (cfg : RepoConfig) : List StatusCheck :=
  (dedupFirst ((filteredStatuses statuses cfg).map (fun s => s.context))).filterMap
    (groupMax (filteredStatuses statuses cfg))

theorem maxStep_some (acc : Option StatusCheck) (s : StatusCheck) :
    ∃ x, maxStep acc s = some x ∧ (x = s ∨ acc = some x) ∧
      strLe s.updated_at x.updated_at = true ∧
      (∀ a, acc = some a → strLe a.updated_at x.updated_at = true) := by
  cases acc with
  | none =>
    refine ⟨s, rfl, Or.inl rfl, strLe_refl _, ?_⟩
    intro a h; cases h
  | some m =>
    cases hlt : strLt m.updated_at s.updated_at with
    | true =>
      refine ⟨s, by simp [maxStep, hlt], Or.inl rfl, strLe_refl _, ?_⟩
      intro a h
      injection h with h; subst h
      exact strLe_of_strLt _ _ hlt
    | false =>
      refine ⟨m, by simp [maxStep, hlt], Or.inr rfl, strLe_of_not_strLt _ _ hlt, ?_⟩
      intro a h
      injection h with h; subst h
      exact strLe_refl _

theorem maxByFold_spec :
    ∀ (l : List StatusCheck) (acc : Option StatusCheck) (m : StatusCheck),
    l.foldl maxStep acc = some m →
    (acc = some m ∨ m ∈ l) ∧
    (∀ a, acc = some a → strLe a.updated_at m.updated_at = true) ∧
    (∀ t ∈ l, strLe t.updated_at m.updated_at = true) := by
  intro l
  induction l with
  | nil =>
    intro acc m h
    simp only [List.foldl_nil] at h
    refine ⟨Or.inl h, ?_, ?_⟩
    · intro a ha
      rw [ha] at h
      injection h with h; subst h
      exact strLe_refl _
    · intro t ht; cases ht
  | cons s rest ih =>
    intro acc m h
    rw [List.foldl_cons] at h
    obtain ⟨x, hx, hor, hs, hacc⟩ := maxStep_some acc s
    rw [hx] at h
    obtain ⟨ihor, ihacc, ihall⟩ := ih (some x) m h
    have hxm : strLe x.updated_at m.updated_at = true := ihacc x rfl
    refine ⟨?_, ?_, ?_⟩
    · rcases ihor with hh | hh
      · injection hh with hh; subst hh
        rcases hor with rfl | hor2
        · exact Or.inr (List.mem_cons_self _ _)
        · exact Or.inl hor2
      · exact Or.inr (List.mem_cons_of_mem _ hh)
    · intro a ha
      exact strLe_trans _ _ _ (hacc a ha) hxm
    · intro t ht
      rcases List.mem_cons.1 ht with rfl | ht2
      · exact strLe_trans _ _ _ hs hxm
      · exact ihall t ht2

theorem maxByUpdated_mem {l : List StatusCheck} {m : StatusCheck}
    (h : maxByUpdated l = some m) : m ∈ l := by
  obtain ⟨hor, _, _⟩ := maxByFold_spec l none m h
  rcases hor with h2 | h2
  · exact absurd h2 (by simp)
  · exact h2

theorem maxByUpdated_max {l : List StatusCheck} {m : StatusCheck}
    (h : maxByUpdated l = some m) :
    ∀ t ∈ l, strLe t.updated_at m.updated_at = true :=
  (maxByFold_spec l none m h).2.2

theorem dedup_fold_nodup :
    ∀ (l : List String) (acc : List String), acc.Nodup → (l.foldl insOnce acc).Nodup := by
  intro l
  induction l with
  | nil => intro acc h; exact h
  | cons c rest ih =>
    intro acc h
    rw [List.foldl_cons]
    apply ih
    unfold insOnce
    by_cases hc : c ∈ acc
    · rw [if_pos hc]; exact h
    · rw [if_neg hc]
      simp [List.nodup_append, h, hc]

theorem dedupFirst_nodup (l : List String) : (dedupFirst l).Nodup :=
  dedup_fold_nodup l [] List.nodup_nil

theorem groupMax_context {F : List StatusCheck} {c : String} {m : StatusCheck}
    (h : groupMax F c = some m) : m ∈ F ∧ m.context = c := by
  have hm := maxByUpdated_mem h
  have hmf := List.mem_filter.1 hm
  exact ⟨hmf.1, by simpa using hmf.2⟩

theorem groups_context_nodup (F : List StatusCheck) :
    ∀ ctxs : List String, ctxs.Nodup →
    ((ctxs.filterMap (groupMax F)).map (fun s => s.context)).Nodup := by
  intro ctxs
  induction ctxs with
  | nil => intro _; simp
  | cons c rest ih =>
    intro hnd
    rw [List.nodup_cons] at hnd
    rw [List.filterMap_cons]
    cases hg : groupMax F c with
    | none => exact ih hnd.2
    | some m =>
      simp only [List.map_cons]
      rw [List.nodup_cons]
      refine ⟨?_, ih hnd.2⟩
      intro hmem
      rw [List.mem_map] at hmem
      obtain ⟨t, ht, hct⟩ := hmem
      rw [List.mem_filterMap] at ht
      obtain ⟨c2, hc2, hgc2⟩ := ht
      apply hnd.1
      have hcm : m.context = c := (groupMax_context hg).2
      have hct2 : t.context = c2 := (groupMax_context hgc2).2
      rw [← hcm, ← hct, hct2]
      exact hc2

theorem mem_filteredStatuses (statuses : List StatusCheck) (cfg : RepoConfig)
    (s : StatusCheck) :
    s ∈ filteredStatuses statuses cfg ↔
      s ∈ statuses ∧ ∀ c ∈ cfg.ignoredChecks, jsStartsWith s.context c = false := by
  rw [filteredStatuses, List.mem_filter]
  constructor
  · rintro ⟨h1, h2⟩
    refine ⟨h1, ?_⟩
    simp only [notIgnoredChk, Bool.not_eq_true', List.any_eq_false] at h2
    intro c hc
    exact Bool.not_eq_true _ ▸ h2 c hc
  · rintro ⟨h1, h2⟩
    refine ⟨h1, ?_⟩
    simp only [notIgnoredChk, Bool.not_eq_true', List.any_eq_false]
    intro c hc
    simp [h2 c hc]

/-- C3: `filterLatestStatuses` returns at most one entry per context; each
returned entry is a non-ignored input status whose `updated_at` is maximal
(in the JS string order the source uses) among the non-ignored statuses of
its context; and no returned entry has a context starting with an
`ignoredChecks` prefix. -/
theorem filterLatestStatuses_spec (statuses : List StatusCheck) (cfg : RepoConfig) :
    ((filterLatestStatuses statuses cfg).map (fun s => s.context)).Nodup ∧
    ∀ s ∈ filterLatestStatuses statuses cfg,
      s ∈ statuses ∧
      (∀ c ∈ cfg.ignoredChecks, jsStartsWith s.context c = false) ∧
      ∀ t ∈ statuses,
        (∀ c ∈ cfg.ignoredChecks, jsStartsWith t.context c = false) →
        t.context = s.context → strLe t.updated_at s.updated_at = true := by
  constructor
  · exact groups_context_nodup _ _ (dedupFirst_nodup _)
  · intro s hs
    rw [filterLatestStatuses, List.mem_filterMap] at hs
    obtain ⟨c, hc, hg⟩ := hs
    have hmF := (groupMax_context hg).1
    have hctx : s.context = c := (groupMax_context hg).2
    have hmem := (mem_filteredStatuses statuses cfg s).1 hmF
    refine ⟨hmem.1, hmem.2, ?_⟩
    intro t ht htok hteq
    have htF : t ∈ filteredStatuses statuses cfg :=
      (mem_filteredStatuses statuses cfg t).2 ⟨ht, htok⟩
    have htgrp : t ∈ (filteredStatuses statuses cfg).filter (fun x => x.context == c) := by
      rw [List.mem_filter]
      exact ⟨htF, by simp [hteq, hctx]⟩
    exact maxByUpdated_max hg t htgrp

/-- C3 witness input: two versions of the `ci` check plus an ignored
`codecov` check. -/
def c3Statuses : List StatusCheck :=
  [⟨"ci", "success", "2018-02"⟩, ⟨"ci", "pending", "2018-01"⟩,
   ⟨"codecov/patch", "failure", "2018-03"⟩]

/-- C3 witness config. -/
def c3Config : RepoConfig := ⟨["codecov"], []⟩

/-- Witness for the C3 theorem at a concrete status list. -/
theorem filterLatestStatuses_spec_witness :
    (⟨"ci", "success", "2018-02"⟩ : StatusCheck) ∈ c3Statuses ∧
    strLe "2018-01" "2018-02" = true := by
  have h := (filterLatestStatuses_spec c3Statuses c3Config).2
    ⟨"ci", "success", "2018-02"⟩ (by decide)
  exact ⟨h.1, h.2.2 ⟨"ci", "pending", "2018-01"⟩ (by decide) (by decide) (by decide)⟩

/-! ## Spawn error scrubbing (lib/utils.js `stripEnv` / `processError` / `spawn`) -/

/-- The options object passed to `child_process.spawn`.  A JS `env` object
with non-index string keys enumerates in insertion order, so it is an
association list here. -/
structure SpawnOptions where
  env : Option (List (String × String)) := none
  cwd : Option String := none
deriving DecidableEq, Repr

/-- The scrubbed options attached to a process error: `env`, when present,
is only the list of its key names. -/
structure ScrubbedOptions where
  env : Option (List String)
  cwd : Option String
deriving DecidableEq, Repr

/-- `stripEnv`: `options.env && { env: Object.keys(options.env) }` merged
over the options (`Object.keys` yields key names in insertion order). -/
def stripEnv (options : SpawnOptions) : ScrubbedOptions :=
  match options.env with
  | some e => { env := some (e.map Prod.fst), cwd := options.cwd }
  | none => { env := none, cwd := options.cwd }

/-- The error object built by `processError`. -/
structure ProcessFailed where
  code : Int
  args : List String
  options : ScrubbedOptions
  message : String
deriving DecidableEq, Repr

/-- `processError(code, command, args, options)`. -/
def processError (code : Int) (command : String) (args : List String)
    (options : SpawnOptions) : ProcessFailed :=
  { code := code, args := args, options := stripEnv options,
    message := "Process \"" ++ command ++ "\" errored with code " ++ toString code }

/-- The exit handler of `spawn`:
`code === 0 ? succeed() : fail({code})` where `fail` rejects with
`processError(e.code, command, args, options)` and `succeed` resolves the
accumulated standard output. -/
def spawnResult (command : String) (args : List String) (options : SpawnOptions)
    (stdout : List String) (exitCode : Int) : Except ProcessFailed (List String) :=
  if exitCode = 0 then .ok stdout else .error (processError exitCode command args options)

/-- Modelled from the spec: the key names sorted, as the claim asserts
(`"scrubbed options object in which any env map is replaced by the sorted
list of its key names"`).  Used only to compare the code against the
claim. -/
def sortedEnvKeysSpec (env : List (String × String)) : List String :=
  (env.map Prod.fst).insertionSort (fun a b => strLe a b = true)

/-- C6 counterexample: on a non-zero exit the error's env key list is in
insertion order, not sorted: keys inserted as `b, a` surface as
`["b", "a"]` while the claim demands the sorted `["a", "b"]`.  (The repo's
own test expects insertion order: `{x, password}` becomes
`['x', 'password']`.) -/
theorem spawn_env_keys_counterexample :
    spawnResult "test" [] { env := some [("b", "1"), ("a", "2")] } [] 1
      = .error (processError 1 "test" [] { env := some [("b", "1"), ("a", "2")] }) ∧
    (processError 1 "test" [] { env := some [("b", "1"), ("a", "2")] }).options.env
      = some ["b", "a"] ∧
    sortedEnvKeysSpec [("b", "1"), ("a", "2")] = ["a", "b"] ∧
    (["b", "a"] : List String) ≠ ["a", "b"] := by
  refine ⟨rfl, rfl, by decide, by decide⟩

/-- C6 (amended): a non-zero exit rejects with a `ProcessFailed` carrying
the exit code, the argument list, and scrubbed options whose `env` is the
list of the env key names in insertion order — never the values. -/
theorem spawn_nonzero_exit_spec (command : String) (args : List String)
    (options : SpawnOptions) (stdout : List String) (code : Int) (h : code ≠ 0) :
    spawnResult command args options stdout code
      = .error (processError code command args options) ∧
    (processError code command args options).code = code ∧
    (processError code command args options).args = args ∧
    (processError code command args options).options.env
      = options.env.map (fun e => e.map Prod.fst) := by
  refine ⟨?_, rfl, rfl, ?_⟩
  · simp [spawnResult, h]
  · cases he : options.env <;> simp [processError, stripEnv, he]

/-- Witness for the amended C6 theorem at a concrete failing spawn. -/
theorem spawn_nonzero_exit_spec_witness :
    spawnResult "test" ["x"] { env := some [("PASSWORD", "x")] } [] 1
      = .error (processError 1 "test" ["x"] { env := some [("PASSWORD", "x")] }) ∧
    (processError 1 "test" ["x"] { env := some [("PASSWORD", "x")] }).options.env
      = some ["PASSWORD"] := by
  have h := spawn_nonzero_exit_spec "test" ["x"]
    { env := some [("PASSWORD", "x")] } [] 1 (by decide)
  exact ⟨h.1, by rw [h.2.2.2]; rfl⟩

/-! ## Target dispatch (lib/index.js `performRelease`)

`config.targets.map(target => runTarget(...).catch(e => logger.error(e)))`
followed by `Promise.all(runs)`.  A target's outcome is `Except`: an error
message when its promise rejects, `()` when it resolves. -/

/-- `.catch(e => logger.error(e))`: a rejected target promise becomes a
resolved one (the error has been logged); a resolved one is unchanged. -/
def jsCatchLog (r : Except String Unit) : Except String Unit :=
  match r with
  | .error _ => .ok ()
  | .ok u => .ok u

/-- `Promise.all`: rejects with the first rejection, otherwise resolves
with the list of all values. -/
def promiseAllUnit (rs : List (Except String Unit)) : Except String (List Unit) :=
  rs.foldr
    (fun r acc =>
      match r with
      | .error e => .error e
      | .ok u =>
        match acc with
        | .ok l => .ok (u :: l)
        | .error e => .error e)
    (.ok [])

/-- The fan-out of `performRelease`: every target spec is mapped to its
(wrapped) run.  `run` gives the outcome of `runTarget` for each spec. -/
def releaseRuns (targets : List String) (run : String → Except String Unit) :
    List (String × Except String Unit) :=
  targets.map (fun t => (t, jsCatchLog (run t)))

/-- The errors logged by the per-target `catch` handlers. -/
def releaseErrorLog (targets : List String) (run : String → Except String Unit) :
    List String :=
  targets.filterMap (fun t =>
    match run t with
    | .error e => some e
    | .ok _ => none)

theorem jsCatchLog_ok (r : Except String Unit) : jsCatchLog r = .ok () := by
  cases r with
  | error e => rfl
  | ok u => cases u; rfl

/-- C4: each configured target is invoked exactly once whatever the
outcomes are (so a failure of target `i` cannot affect whether `j` runs),
the wrapped `Promise.all` always resolves (the release awaits all targets
and completes), and every rejection is caught into the error log. -/
theorem performRelease_isolation (targets : List String)
    (run run2 : String → Except String Unit) :
    (releaseRuns targets run).map Prod.fst = targets ∧
    (releaseRuns targets run).map Prod.fst = (releaseRuns targets run2).map Prod.fst ∧
    promiseAllUnit ((releaseRuns targets run).map Prod.snd)
      = .ok (targets.map (fun _ => ())) ∧
    ∀ t ∈ targets, ∀ e, run t = .error e → e ∈ releaseErrorLog targets run := by
  refine ⟨?_, ?_, ?_, ?_⟩
  · unfold releaseRuns
    rw [List.map_map]
    exact List.map_id _
  · unfold releaseRuns
    rw [List.map_map, List.map_map]
    exact rfl
  · induction targets with
    | nil => rfl
    | cons t rest ih =>
      simp only [releaseRuns, List.map_cons, List.map_map] at ih ⊢
      rw [jsCatchLog_ok]
      show promiseAllUnit (Except.ok () :: _) = _
      unfold promiseAllUnit at ih ⊢
      rw [List.foldr_cons, ih]
  · intro t ht e he
    rw [releaseErrorLog, List.mem_filterMap]
    exact ⟨t, ht, by rw [he]⟩

/-- Witness for the C4 theorem: one of two targets fails, the other is
still invoked and the release completes. -/
theorem performRelease_isolation_witness :
    (releaseRuns ["npm", "pypi"]
        (fun t => if t == "npm" then .error "boom" else .ok ())).map Prod.fst
      = ["npm", "pypi"] ∧
    promiseAllUnit ((releaseRuns ["npm", "pypi"]
        (fun t => if t == "npm" then .error "boom" else .ok ())).map Prod.snd)
      = .ok [(), ()] ∧
    "boom" ∈ releaseErrorLog ["npm", "pypi"]
      (fun t => if t == "npm" then .error "boom" else .ok ()) := by
  have h := performRelease_isolation ["npm", "pypi"]
    (fun t => if t == "npm" then .error "boom" else .ok ())
    (fun _ => .ok ())
  exact ⟨h.1, h.2.2.1, h.2.2.2 "npm" (by decide) "boom" (by rfl)⟩

/-! ## Artifact store download memoization (lib/stores)

Both drivers keep `downloadCache[file.key]`.  In JS, indexing an object
with `undefined` uses the property name `"undefined"`, so files without a
`key` all share one cache slot. -/

/-- A file object as the drivers see it; only `key` and `name` are
inspected by `downloadFile`. -/
structure StoreFile where
  key : Option String
  name : String
deriving DecidableEq, Repr

/-- The property name used by `downloadCache[file.key]`: the key itself,
or `"undefined"` when the file has no `key`. -/
def jsPropKey (k : Option String) : String :=
  match k with
  | some s => s
  | none => "undefined"

/-- `downloadFile(file)`: return the cached promise when present;
otherwise download to `join(downloadDirectory, file.name)` and store the
promise under `file.key`.  The returned string is the resolved local
path. -/
def downloadFile (dir : String) (cache : List (String × String)) (f : StoreFile) :
    String × List (String × String) :=
  match cache.find? (fun e => e.1 == jsPropKey f.key) with
  | some e => (e.2, cache)
  | none =>
    let localFile := dir ++ "/" ++ f.name
    (localFile, cache ++ [(jsPropKey f.key, localFile)])

/-- `downloadFiles(files)`: `Promise.all(files.map(file => downloadFile(file)))`;
the map runs synchronously, so the cache is threaded left to right. -/
def downloadFiles (dir : String) (cache : List (String × String))
    (files : List StoreFile) : List String × List (String × String) :=
  match files with
  | [] => ([], cache)
  | f :: rest =>
    let r1 := downloadFile dir cache f
    let r2 := downloadFiles dir r1.2 rest
    (r1.1 :: r2.1, r2.2)

/-- An artifact as returned by the Zeus API. -/
structure ZeusArtifact where
  name : String
  filetype : String
  download_url : String
deriving DecidableEq, Repr

/-- The zeus driver's `listFiles` artifact mapping:
`{name: artifact.name, type: artifact.type, url: artifact.download_url}` —
note that no `key` property is set. -/
def zeusListedFile (a : ZeusArtifact) : StoreFile :=
  { key := none, name := a.name }

/-- The last path component of a key (`basename`). -/
def basenameChars : List Char → List Char → List Char
  | [], acc => acc.reverse
  | c :: rest, acc =>
    if c = '/' then basenameChars rest [] else basenameChars rest (c :: acc)

/-- `basename` over strings. -/
def basenameStr (p : String) : String := String.mk (basenameChars p.toList [])

/-- The s3 driver's `mapEntry`: `{key: entry.Key, name: basename(entry.Key)}`. -/
def s3MapEntry (entryKey : String) : StoreFile :=
  { key := some entryKey, name := basenameStr entryKey }

/-- C8 (code bug): for the zeus driver the files returned by `listFiles`
carry no `key`, so every file memoizes under the property name
`"undefined"`: downloading the listed files `a` and `b` yields the path of
`a` twice and never downloads `b`, contradicting the store contract of one
local path per listed file.  The s3 driver, whose `mapEntry` does set
`key`, behaves as the claim describes. -/
theorem zeus_download_collision :
    downloadFiles "dir" []
        [zeusListedFile ⟨"a", "t", "u"⟩, zeusListedFile ⟨"b", "t", "u"⟩]
      = (["dir/a", "dir/a"], [("undefined", "dir/a")]) ∧
    downloadFiles "dir" [] [s3MapEntry "o/r/sha/a", s3MapEntry "o/r/sha/b"]
      = (["dir/a", "dir/b"],
         [("o/r/sha/a", "dir/a"), ("o/r/sha/b", "dir/b")]) := by
  exact ⟨by decide, by decide⟩

/-! ## Release scheduler (lib/index.js `processTag` and the timer map)

`processTag` cancels any scheduled release for the tag id, re-evaluates the
latest statuses and, when everything is green and targets exist, schedules
`performRelease` after `RELEASE_TIMEOUT` seconds.  The timer callback
deletes the entry and dispatches.  We embed this as a fold over an explicit
event trace with nondecreasing times: a `proc` event is one `processTag`
run (carrying the statuses and config it observes); a `fire` event is the
wall clock reaching a timer's expiry — it dispatches only when a live entry
expires exactly then (a cancelled timer never runs its callback). -/

/-- The guard chain of `processTag`: not empty, no latest check pending,
all latest checks successful, targets configured. -/
def shouldScheduleRelease (latest : List StatusCheck) (targets : List String) : Bool :=
  !latest.isEmpty &&
  !(latest.any (fun s => s.state == "pending")) &&
  !(latest.any (fun s => s.state != "success")) &&
  !targets.isEmpty

/-- The scheduler's mutable state: the timer map `scheduledReleases`
(entries `(id, time the timer was set)`) and the dispatched releases
`(id, fire time)`, most recent first. -/
structure SchedulerState where
  entries : List (String × Nat)
  dispatches : List (String × Nat)
deriving DecidableEq, Repr

/-- `clearTimeout(scheduled); delete scheduledReleases[id]` (a no-op when
no timer is pending, like the `scheduled != null` check). -/
def removeScheduled (entries : List (String × Nat)) (id : String) :
    List (String × Nat) :=
  entries.filter (fun e => e.1 != id)

/-- Scheduler events: a `processTag` run for a tag id with the statuses
and config it observes, or a timer expiry. -/
inductive SchedEvent
  | proc (id : String) (statuses : List StatusCheck) (cfg : RepoConfig) (time : Nat)
  | fire (id : String) (time : Nat)

/-- The wall-clock time of an event. -/
def evTime : SchedEvent → Nat
  | .proc _ _ _ t => t
  | .fire _ t => t

/-- One `processTag` run: cancel the pending timer first, then evaluate
the aggregate state and possibly schedule a fresh release now. -/
def processTagStep (st : SchedulerState) (id : String) (statuses : List StatusCheck)
    (cfg : RepoConfig) (now : Nat) : SchedulerState :=
  let entries1 := removeScheduled st.entries id
  if shouldScheduleRelease (filterLatestStatuses statuses cfg) cfg.targets then
    { st with entries := (id, now) :: entries1 }
  else
    { st with entries := entries1 }

/-- A timer expiry at time `now`: the callback of the live timer for `id`
runs only when that timer expires exactly now (`set time + T = now`); it
deletes the entry and dispatches `performRelease`.  A stale expiry (the
timer was cancelled or replaced) does nothing. -/
def fireStep (T : Nat) (st : SchedulerState) (id : String) (now : Nat) :
    SchedulerState :=
  match st.entries.find? (fun e => e.1 == id) with
  | some e =>
    if e.2 + T = now then
      { entries := removeScheduled st.entries id,
        dispatches := (id, now) :: st.dispatches }
    else st
  | none => st

/-- One scheduler event. -/
def schedStep (T : Nat) (st : SchedulerState) (e : SchedEvent) : SchedulerState :=
  match e with
  | .proc id statuses cfg t => processTagStep st id statuses cfg t
  | .fire id t => fireStep T st id t

/-- Run the scheduler from a state over an event trace. -/
def runSchedFrom (T : Nat) (st : SchedulerState) (evs : List SchedEvent) :
    SchedulerState :=
  evs.foldl (schedStep T) st

/-- Run the scheduler from the initial empty state. -/
def runSched (T : Nat) (evs : List SchedEvent) : SchedulerState :=
  runSchedFrom T ⟨[], []⟩ evs

/-- The scheduler invariant at time bound `tb`: at most one timer per id;
entries and dispatches are dated no later than `tb`; every pending timer
was set no earlier than any past dispatch of its id; and dispatches of the
same id are at least `T` apart (most recent first). -/
def SchedInv (T tb : Nat) (st : SchedulerState) : Prop :=
  (st.entries.map Prod.fst).Nodup ∧
  (∀ e ∈ st.entries, e.2 ≤ tb) ∧
  (∀ d ∈ st.dispatches, d.2 ≤ tb) ∧
  (∀ e ∈ st.entries, ∀ d ∈ st.dispatches, e.1 = d.1 → d.2 ≤ e.2) ∧
  st.dispatches.Pairwise (fun a b => a.1 = b.1 → b.2 + T ≤ a.2)

theorem mem_removeScheduled {entries : List (String × Nat)} {id : String}
    {x : String × Nat} (h : x ∈ removeScheduled entries id) :
    x ∈ entries ∧ x.1 ≠ id := by
  rw [removeScheduled, List.mem_filter] at h
  exact ⟨h.1, bne_iff_ne.1 h.2⟩

theorem removeScheduled_nodup {entries : List (String × Nat)} {id : String}
    (h : (entries.map Prod.fst).Nodup) :
    ((removeScheduled entries id).map Prod.fst).Nodup :=
  h.sublist ((List.filter_sublist entries).map Prod.fst)

theorem schedInv_mono {T tb t : Nat} {st : SchedulerState}
    (h : SchedInv T tb st) (hle : tb ≤ t) : SchedInv T t st := by
  obtain ⟨h1, h2, h3, h4, h5⟩ := h
  exact ⟨h1, fun e he => le_trans (h2 e he) hle,
         fun d hd => le_trans (h3 d hd) hle, h4, h5⟩

theorem schedStep_inv {T t : Nat} {st : SchedulerState} (ev : SchedEvent)
    (hinv : SchedInv T t st) (ht : evTime ev = t) :
    SchedInv T t (schedStep T st ev) := by
  obtain ⟨h1, h2, h3, h4, h5⟩ := hinv
  cases ev with
  | proc id statuses cfg time =>
    cases ht
    show SchedInv T time (processTagStep st id statuses cfg time)
    unfold processTagStep
    by_cases hb :
        shouldScheduleRelease (filterLatestStatuses statuses cfg) cfg.targets = true
    · rw [if_pos hb]
      refine ⟨?_, ?_, h3, ?_, h5⟩
      · rw [List.map_cons, List.nodup_cons]
        refine ⟨?_, removeScheduled_nodup h1⟩
        intro hmem
        rw [List.mem_map] at hmem
        obtain ⟨x, hx, hx1⟩ := hmem
        exact (mem_removeScheduled hx).2 hx1
      · intro e he
        rcases List.mem_cons.1 he with rfl | he2
        · exact le_refl _
        · exact h2 e (mem_removeScheduled he2).1
      · intro e he d hd heq
        rcases List.mem_cons.1 he with rfl | he2
        · exact h3 d hd
        · exact h4 e (mem_removeScheduled he2).1 d hd heq
    · rw [if_neg hb]
      refine ⟨removeScheduled_nodup h1, ?_, h3, ?_, h5⟩
      · intro e he
        exact h2 e (mem_removeScheduled he).1
      · intro e he d hd heq
        exact h4 e (mem_removeScheduled he).1 d hd heq
  | fire id time =>
    cases ht
    show SchedInv T time (fireStep T st id time)
    unfold fireStep
    split
    case h_2 => exact ⟨h1, h2, h3, h4, h5⟩
    case h_1 e hf =>
      have hemem : e ∈ st.entries := List.mem_of_find?_eq_some hf
      have heid : e.1 = id := by
        have := List.find?_some hf
        simpa using this
      by_cases hexp : e.2 + T = time
      · rw [if_pos hexp]
        refine ⟨removeScheduled_nodup h1, ?_, ?_, ?_, ?_⟩
        · intro x hx
          exact h2 x (mem_removeScheduled hx).1
        · intro d hd
          rcases List.mem_cons.1 hd with rfl | hd2
          · exact le_refl _
          · exact h3 d hd2
        · intro x hx d hd heq
          rcases List.mem_cons.1 hd with rfl | hd2
          · exact absurd ((mem_removeScheduled hx).2) (by simp [heq])
          · exact h4 x (mem_removeScheduled hx).1 d hd2 heq
        · rw [List.pairwise_cons]
          refine ⟨?_, h5⟩
          intro d hd hdid
          have hde : d.2 ≤ e.2 := h4 e hemem d hd (heid.trans hdid)
          calc d.2 + T ≤ e.2 + T := Nat.add_le_add_right hde T
            _ = time := hexp
      · rw [if_neg hexp]
        exact ⟨h1, h2, h3, h4, h5⟩

theorem runSchedFrom_inv :
    ∀ (evs : List SchedEvent) (T tb : Nat) (st : SchedulerState),
    SchedInv T tb st →
    (∀ ev ∈ evs, tb ≤ evTime ev) →
    (evs.map evTime).Pairwise (· ≤ ·) →
    ∃ tb2, SchedInv T tb2 (runSchedFrom T st evs) := by
  intro evs
  induction evs with
  | nil =>
    intro T tb st hinv _ _
    exact ⟨tb, hinv⟩
  | cons ev rest ih =>
    intro T tb st hinv hlb hsorted
    rw [List.map_cons, List.pairwise_cons] at hsorted
    have hb : tb ≤ evTime ev := hlb ev (List.mem_cons_self _ _)
    have hstep : SchedInv T (evTime ev) (schedStep T st ev) :=
      schedStep_inv ev (schedInv_mono hinv hb) rfl
    refine ih T (evTime ev) (schedStep T st ev) hstep ?_ hsorted.2
    intro ev2 hev2
    exact hsorted.1 (evTime ev2) (List.mem_map_of_mem evTime hev2)

/-- C1: over any event trace with nondecreasing times, (1) at every point
the timer map holds at most one scheduled release per id; (2) any two
dispatched releases of the same id are at least `T` seconds apart (an
event for the id inside the window cancels the pending timer, so the
window genuinely debounces); (3) after a `processTag` run any surviving
timer entry for that id is the freshly scheduled one — the pending timer
was cancelled and its entry removed before the aggregate state was
re-evaluated. -/
theorem scheduler_debounce_single_release (T : Nat) (evs : List SchedEvent)
    (hsorted : (evs.map evTime).Pairwise (· ≤ ·)) :
    (∀ pre suf, evs = pre ++ suf →
      ((runSched T pre).entries.map Prod.fst).Nodup) ∧
    (runSched T evs).dispatches.Pairwise (fun a b => a.1 = b.1 → b.2 + T ≤ a.2) ∧
    ∀ (st : SchedulerState) (id : String) (statuses : List StatusCheck)
      (cfg : RepoConfig) (now : Nat),
      ∀ x ∈ (processTagStep st id statuses cfg now).entries,
        x.1 = id → x.2 = now := by
  have hinit : SchedInv T 0 ⟨[], []⟩ := by
    refine ⟨List.nodup_nil, ?_, ?_, ?_, List.Pairwise.nil⟩ <;>
      intro x hx <;> cases hx
  refine ⟨?_, ?_, ?_⟩
  · intro pre suf heq
    have hsub : (pre.map evTime).Sublist (evs.map evTime) := by
      rw [heq, List.map_append]
      exact List.sublist_append_left _ _
    obtain ⟨tb2, hinv⟩ := runSchedFrom_inv pre T 0 ⟨[], []⟩ hinit
      (fun ev _ => Nat.zero_le _) (hsorted.sublist hsub)
    exact hinv.1
  · obtain ⟨tb2, hinv⟩ := runSchedFrom_inv evs T 0 ⟨[], []⟩ hinit
      (fun ev _ => Nat.zero_le _) hsorted
    exact hinv.2.2.2.2
  · intro st id statuses cfg now x hx hxid
    unfold processTagStep at hx
    by_cases hb :
        shouldScheduleRelease (filterLatestStatuses statuses cfg) cfg.targets = true
    · rw [if_pos hb] at hx
      rcases List.mem_cons.1 hx with rfl | hx2
      · rfl
      · exact absurd hxid (mem_removeScheduled hx2).2
    · rw [if_neg hb] at hx
      exact absurd hxid (mem_removeScheduled hx).2

/-- C1 witness trace: one green `processTag` at time 0 and the timer
expiry 60 seconds later. -/
def c1DemoEvents : List SchedEvent :=
  [.proc "owner/repo:v1" [⟨"ci", "success", "2018-01"⟩] ⟨[], ["github"]⟩ 0,
   .fire "owner/repo:v1" 60]

/-- Witness for the C1 theorem on the demo trace; the extra conjunct
checks that the trace really dispatches once. -/
theorem scheduler_debounce_single_release_witness :
    (runSched 60 c1DemoEvents).dispatches.Pairwise
      (fun a b => a.1 = b.1 → b.2 + 60 ≤ a.2) ∧
    (runSched 60 c1DemoEvents).dispatches = [("owner/repo:v1", 60)] := by
  refine ⟨(scheduler_debounce_single_release 60 c1DemoEvents (by decide)).2.1, by decide⟩

/-! ## Cargo topological publish order (lib/targets/cargo.js `getPublishOrder`) -/

/-- A package dependency specification: `{name, req}`. -/
structure CrateDependency where
  name : String
  req : String
deriving DecidableEq, Repr

/-- A cargo package; `id`, `version` and `manifest_path` play no role in
`getPublishOrder`, which reads only `name` and `dependencies`. -/
structure CargoPackage where
  name : String
  version : String
  dependencies : List CrateDependency
deriving DecidableEq, Repr

/-- The selection predicate of the loop body:
`p.dependencies.filter(dep => remaining[dep.name]).length === 0`. -/
def isReady (remaining : List CargoPackage) (p : CargoPackage) : Bool :=
  (p.dependencies.filter
    (fun d => remaining.any (fun q => q.name == d.name))).length == 0

/-- One iteration of the `while` loop: `_.filter(remaining, ...)` collects
every package with no remaining in-set dependency (in map order), each is
pushed onto the output and deleted from `remaining` by name. -/
def publishRound (remaining : List CargoPackage) :
    List CargoPackage × List CargoPackage :=
  let ready := remaining.filter (isReady remaining)
  (ready, remaining.filter (fun p => !(ready.any (fun r => r.name == p.name))))

/-- The `while (!_.isEmpty(remaining))` loop.  The fuel bounds the
iteration count: with an acyclic graph every round removes at least one
package, so `packages.length` rounds suffice (on a cyclic graph the
source loops forever and the model exhausts its fuel). -/
def publishLoop : Nat → List CargoPackage → List CargoPackage
  | 0, _ => []
  | fuel + 1, remaining =>
    if remaining.isEmpty then []
    else
      let pr := publishRound remaining
      pr.1 ++ publishLoop fuel pr.2

/-- `getPublishOrder(packages)`. -/
def getPublishOrder (packages : List CargoPackage) : List CargoPackage :=
  publishLoop packages.length packages

theorem isReady_no_dep_in {remaining : List CargoPackage} {q : CargoPackage}
    (hq : isReady remaining q = true) :
    ∀ d ∈ q.dependencies, remaining.any (fun r => r.name == d.name) = false := by
  rw [isReady, beq_iff_eq, List.length_eq_zero] at hq
  intro d hd
  have := List.filter_eq_nil_iff.1 hq d hd
  exact Bool.not_eq_true _ ▸ this

theorem publishRound_rest_eq {remaining : List CargoPackage}
    (hnd : (remaining.map CargoPackage.name).Nodup) :
    (publishRound remaining).2
      = remaining.filter (fun p => !(isReady remaining p)) := by
  apply List.filter_congr
  intro p hp
  have hinj := List.inj_on_of_nodup_map hnd
  congr 1
  cases hr : isReady remaining p with
  | true =>
    rw [List.any_eq_true]
    exact ⟨p, List.mem_filter.2 ⟨hp, hr⟩, by simp⟩
  | false =>
    rw [← Bool.not_eq_true, List.any_eq_true]
    rintro ⟨r, hrmem, hrname⟩
    have hr2 := List.mem_filter.1 hrmem
    have : r = p := hinj hr2.1 hp (by simpa using hrname)
    rw [this] at hr2
    rw [hr2.2] at hr
    cases hr

theorem publishRound_perm {remaining : List CargoPackage}
    (hnd : (remaining.map CargoPackage.name).Nodup) :
    ((publishRound remaining).1 ++ (publishRound remaining).2).Perm remaining := by
  rw [publishRound_rest_eq hnd]
  exact List.filter_append_perm (isReady remaining) remaining

theorem publishRound_ready_ne_nil {remaining : List CargoPackage}
    (hne : remaining ≠ [])
    (hacy : ∀ S, S.Sublist remaining → S ≠ [] → ∃ p ∈ S, isReady S p = true) :
    (publishRound remaining).1 ≠ [] := by
  obtain ⟨p, hp, hready⟩ := hacy remaining (List.Sublist.refl _) hne
  exact List.ne_nil_of_mem (List.mem_filter.2 ⟨hp, hready⟩)

theorem publishLoop_spec :
    ∀ (fuel : Nat) (remaining : List CargoPackage),
    remaining.length ≤ fuel →
    (remaining.map CargoPackage.name).Nodup →
    (∀ S, S.Sublist remaining → S ≠ [] → ∃ p ∈ S, isReady S p = true) →
    (publishLoop fuel remaining).Perm remaining ∧
    ∀ pre q post, publishLoop fuel remaining = pre ++ q :: post →
      ∀ d ∈ q.dependencies,
        remaining.any (fun r => r.name == d.name) = true →
        pre.any (fun r => r.name == d.name) = true := by
  intro fuel
  induction fuel with
  | zero =>
    intro remaining hlen _ _
    have hnil : remaining = [] :=
      List.eq_nil_of_length_eq_zero (Nat.le_zero.1 hlen)
    subst hnil
    refine ⟨List.Perm.refl _, ?_⟩
    intro pre q post heq
    rw [publishLoop] at heq
    exact absurd heq (by simp)
  | succ fuel ih =>
    intro remaining hlen hnd hacy
    by_cases hne : remaining = []
    · subst hne
      refine ⟨by rw [publishLoop]; rfl, ?_⟩
      intro pre q post heq
      rw [publishLoop] at heq
      simp only [List.isEmpty_nil, if_pos] at heq
      exact absurd heq (by simp)
    · have hloop : publishLoop (fuel + 1) remaining
          = (publishRound remaining).1 ++ publishLoop fuel (publishRound remaining).2 := by
        rw [publishLoop, if_neg (by simpa [List.isEmpty_iff] using hne)]
      set ready := (publishRound remaining).1 with hready
      set rest := (publishRound remaining).2 with hrest
      have hreadyfilter : ready = remaining.filter (isReady remaining) := rfl
      have hperm : (ready ++ rest).Perm remaining := publishRound_perm hnd
      have hreadyne : ready ≠ [] := publishRound_ready_ne_nil hne hacy
      have hrestsub : rest.Sublist remaining := by
        rw [hrest, publishRound]
        exact List.filter_sublist _
      have hrestlen : rest.length < remaining.length := by
        have hlensum : ready.length + rest.length = remaining.length := by
          have := hperm.length_eq
          simpa [List.length_append] using this
        have hpos : 0 < ready.length := List.length_pos.2 hreadyne
        omega
      have hrestnd : (rest.map CargoPackage.name).Nodup :=
        hnd.sublist (hrestsub.map CargoPackage.name)
      have hrestacy : ∀ S, S.Sublist rest → S ≠ [] → ∃ p ∈ S, isReady S p = true :=
        fun S hS => hacy S (hS.trans hrestsub)
      obtain ⟨ihperm, ihorder⟩ :=
        ih rest (by omega) hrestnd hrestacy
      constructor
      · rw [hloop]
        exact (ihperm.append_left ready).trans hperm
      · intro pre q post heq
        rw [hloop] at heq
        intro d hd hdany
        -- translate membership through the permutation
        have hsplitmem : ∀ x ∈ remaining, x ∈ ready ∨ x ∈ rest := by
          intro x hx
          have := hperm.mem_iff.2 hx
          exact List.mem_append.1 this
        rcases List.append_eq_append_iff.1 heq with ⟨a2, hpre, htail⟩ | ⟨c2, hready2, htail⟩
        · -- q lies in the recursive part; pre = ready ++ a2
          have hq : publishLoop fuel rest = a2 ++ q :: post := htail
          have hih := ihorder a2 q post hq d hd
          obtain ⟨x, hxmem, hxname⟩ := List.any_eq_true.1 hdany
          rcases hsplitmem x hxmem with hxr | hxr
          · rw [hpre, List.any_eq_true]
            exact ⟨x, List.mem_append_left _ hxr, hxname⟩
          · have hrest2 : rest.any (fun r => r.name == d.name) = true :=
              List.any_eq_true.2 ⟨x, hxr, hxname⟩
            have ha2 := hih hrest2
            obtain ⟨y, hymem, hyname⟩ := List.any_eq_true.1 ha2
            rw [hpre, List.any_eq_true]
            exact ⟨y, List.mem_append_right _ hymem, hyname⟩
        · -- ready = pre ++ c2 and q :: post = c2 ++ tail
          cases c2 with
          | nil =>
            -- pre is all of ready and q heads the recursive part
            have hq : publishLoop fuel rest = q :: post := by
              simpa using htail.symm
            have hih := ihorder [] q post (by simpa using hq) d hd
            obtain ⟨x, hxmem, hxname⟩ := List.any_eq_true.1 hdany
            rcases hsplitmem x hxmem with hxr | hxr
            · rw [List.any_eq_true]
              refine ⟨x, ?_, hxname⟩
              have hxp : x ∈ pre ++ ([] : List CargoPackage) := hready2 ▸ hxr
              simpa using hxp
            · have hrest2 : rest.any (fun r => r.name == d.name) = true :=
                List.any_eq_true.2 ⟨x, hxr, hxname⟩
              have := hih hrest2
              simp at this
          | cons q2 c3 =>
            -- q is one of the ready packages: it has no dependency left in
            -- the whole remaining set, contradicting hdany
            have hq2 : q = q2 := by
              have := congrArg (fun l => l.head?) htail
              simpa using this
            have hqready : q ∈ ready := by
              rw [hready2, hq2]
              exact List.mem_append_right _ (List.mem_cons_self _ _)
            have hqr : isReady remaining q = true :=
              (List.mem_filter.1 (hreadyfilter ▸ hqready)).2
            have := isReady_no_dep_in hqr d hd
            rw [this] at hdany
            cases hdany

/-- C9: for distinct package names and an acyclic intra-set dependency
graph, `getPublishOrder` returns a permutation of the input in which every
package appears after all of its dependencies that are themselves in the
set.  Acyclicity is taken in the form it is used: every nonempty
subcollection contains a package with no dependency inside it. -/
theorem getPublishOrder_topological (packages : List CargoPackage)
    (hnd : (packages.map CargoPackage.name).Nodup)
    (hacy : ∀ S ∈ packages.sublists, S ≠ [] → ∃ p ∈ S, isReady S p = true) :
    (getPublishOrder packages).Perm packages ∧
    ∀ pre q post, getPublishOrder packages = pre ++ q :: post →
      ∀ d ∈ q.dependencies,
        packages.any (fun r => r.name == d.name) = true →
        pre.any (fun r => r.name == d.name) = true :=
  publishLoop_spec packages.length packages (le_refl _) hnd
    (fun S hS => hacy S (List.mem_sublists.2 hS))

/-! ## Version and changelog parsing (lib/version.js, lib/changes.js)

`parseVersion` finds the first match of the semver regex

  `\bv?(0|[1-9][0-9]*)\.(0|[1-9][0-9]*)\.(0|[1-9][0-9]*)`
  `(?:-([\da-z-]+(?:\.[\da-z-]+)*))?(?:\+([\da-z-]+(?:\.[\da-z-]+)*))?\b`

(flags `gi`) and strips a leading `v`.  `findChangeset` scans with the
multiline heading regex `^ *## *([^\n]+?) *#* *(?:\n+|$)` and extracts the
section between the matching heading and the next one.  Both regexes are
embedded as explicit scanners over the character list, reproducing the
engine's leftmost-match and backtracking behaviour. -/

/-- A regex word character (`\w`), which defines `\b` boundaries. -/
def isWordChar (c : Char) : Bool := c.isAlphanum || c = '_'

/-- A character of the pre-release/build classes `[\da-z-]` under the `i`
flag: digits, ASCII letters of either case, and the dash. -/
def isIdChar (c : Char) : Bool := c.isDigit || c.isAlpha || c = '-'

/-- One numeric component `(0|[1-9][0-9]*)`.  The `0` alternative wins for
a leading zero; otherwise the digit run is consumed greedily (the element
after a component can never match a digit, so no give-back is needed). -/
def numToken : List Char → Option (List Char × List Char)
  | [] => none
  | c :: rest =>
    if c = '0' then some ([c], rest)
    else if c.isDigit then
      let ds := rest.takeWhile Char.isDigit
      some (c :: ds, rest.drop ds.length)
    else none

/-- Candidates for `[\da-z-]+` in the engine's preference order: the
greedy run first, then successively shorter non-empty prefixes. -/
def plusRunCandidates (l : List Char) : List (List Char × List Char) :=
  let g := l.takeWhile isIdChar
  (List.range g.length).map
    (fun i => (g.take (g.length - i), l.drop (g.length - i)))

/-- Candidates for one `\.[\da-z-]+` unit. -/
def dotUnitCandidates (l : List Char) : List (List Char × List Char) :=
  match l with
  | '.' :: rest => (plusRunCandidates rest).map (fun pr => ('.' :: pr.1, pr.2))
  | _ => []

/-- Candidates for `(?:\.[\da-z-]+)*` in preference order: iterate as much
as possible (inner choices greedy), the empty iteration last.  The fuel
bounds the number of units (each consumes at least two characters). -/
def starCandidates : Nat → List Char → List (List Char × List Char)
  | 0, l => [([], l)]
  | fuel + 1, l =>
    ((dotUnitCandidates l).flatMap
      (fun u => (starCandidates fuel u.2).map (fun s => (u.1 ++ s.1, s.2))))
    ++ [([], l)]

/-- Candidates for `[\da-z-]+(?:\.[\da-z-]+)*`. -/
def bodyCandidates (l : List Char) : List (List Char × List Char) :=
  (plusRunCandidates l).flatMap
    (fun p => (starCandidates p.2.length p.2).map (fun s => (p.1 ++ s.1, s.2)))

/-- Candidates for an optional marked group `(?:<mark>(body))?`: the
variants with the group (body greedy) first, skipping the group last. -/
def optGroupCandidates (mark : Char) (l : List Char) : List (List Char × List Char) :=
  match l with
  | c :: rest =>
    if c = mark then
      ((bodyCandidates rest).map (fun b => (c :: b.1, b.2))) ++ [([], l)]
    else [([], l)]
  | [] => [([], l)]

/-- `\b` at the end of the match: end of input or a non-word character. -/
def endBoundaryOK : List Char → Bool
  | [] => true
  | c :: _ => !(isWordChar c)

/-- Try the semver regex at one position.  `prev` is the character before
the position (`\b` holds when it is absent or not a word character; the
first matched character is always a word character).  If consuming the
optional `v` fails later, retrying without it cannot help, because a
component cannot start with `v`. -/
def matchSemverAt (prev : Option Char) (l : List Char) : Option (List Char) :=
  let bOK := match prev with
    | none => true
    | some c => !(isWordChar c)
  if !bOK then none
  else
    let vSplit : List Char × List Char :=
      match l with
      | c :: rest => if c = 'v' || c = 'V' then ([c], rest) else ([], l)
      | [] => ([], l)
    match numToken vSplit.2 with
    | none => none
    | some (n1, l2) =>
      match l2 with
      | '.' :: l3 =>
        match numToken l3 with
        | none => none
        | some (n2, l4) =>
          match l4 with
          | '.' :: l5 =>
            match numToken l5 with
            | none => none
            | some (n3, l6) =>
              let core := vSplit.1 ++ n1 ++ ['.'] ++ n2 ++ ['.'] ++ n3
              (optGroupCandidates '-' l6).findSome? (fun pc =>
                (optGroupCandidates '+' pc.2).findSome? (fun bc =>
                  if endBoundaryOK bc.2 then some (core ++ pc.1 ++ bc.1)
                  else none))
          | _ => none
      | _ => none

/-- Leftmost match of the semver regex: scan position by position. -/
def scanSemver : Option Char → List Char → Option (List Char)
  | _, [] => none
  | prev, c :: rest =>
    match matchSemverAt prev (c :: rest) with
    | some m => some m
    | none => scanSemver (some c) rest

/-- `parseVersion(text)`: the first semver match with a leading `v` (of
either case) stripped, or `null`. -/
def parseVersion (text : String) : Option String :=
  match scanSemver none text.toList with
  | none => none
  | some m =>
    match m with
    | c :: rest => if c = 'v' || c = 'V' then some (String.mk rest) else some (String.mk m)
    | [] => some (String.mk m)

/-- Drop the longest suffix whose characters satisfy `p`. -/
def stripTrailingWhile (p : Char → Bool) (l : List Char) : List Char :=
  (l.reverse.dropWhile p).reverse

/-- The capture `([^\n]+?)` of the heading regex for a line tail (the rest
of the line after `## *`): the lazy group is the tail minus its longest
suffix of the shape `spaces hashes spaces`, but at least one character
(so an all-decoration tail keeps its first character). -/
def headingGroupOf (tail : List Char) : Option (List Char) :=
  if tail.isEmpty then none
  else
    let t := stripTrailingWhile (fun c => c = ' ')
      (stripTrailingWhile (fun c => c = '#')
        (stripTrailingWhile (fun c => c = ' ') tail))
    if t.isEmpty then some (tail.take 1) else some t

/-- Try `^ *## *([^\n]+?) *#* *(?:\n+|$)` at a line start.  Returns the
length of the whole match (the trailing `\n+` is greedy) and the captured
group.  When the line tail after `## *` is empty, the lazy group can still
take one space given back by the greedy `## *` run. -/
def matchHeadingAt (l : List Char) : Option (Nat × List Char) :=
  let s1 := l.takeWhile (fun c => c = ' ')
  match l.drop s1.length with
  | '#' :: '#' :: r2 =>
    let s2 := r2.takeWhile (fun c => c = ' ')
    let r3 := r2.drop s2.length
    let tail := r3.takeWhile (fun c => c ≠ '\n')
    let after := r3.drop tail.length
    let nls := after.takeWhile (fun c => c = '\n')
    let total := s1.length + 2 + s2.length + tail.length + nls.length
    match headingGroupOf tail with
    | some g => some (total, g)
    | none => if s2.length ≥ 1 then some (total, [' ']) else none
  | _ => none

/-- All successive heading matches (`regex.exec` with the `g` flag):
leftmost first, each search resuming after the previous match; `^` with
the `m` flag anchors to line starts.  Each yielded triple is
`(index, length, group)`.  The fuel bounds the scan (every step consumes
at least one character). -/
def findHeadingMatchesF : Nat → List Char → Nat → Bool → List (Nat × Nat × List Char)
  | 0, _, _, _ => []
  | fuel + 1, l, idx, atStart =>
    match l with
    | [] => []
    | c :: rest =>
      if atStart then
        match matchHeadingAt l with
        | some lg =>
          (idx, lg.1, lg.2) :: findHeadingMatchesF fuel (l.drop lg.1) (idx + lg.1) true
        | none => findHeadingMatchesF fuel rest (idx + 1) (c = '\n')
      else findHeadingMatchesF fuel rest (idx + 1) (c = '\n')

/-- All heading matches of a document. -/
def findHeadingMatches (l : List Char) : List (Nat × Nat × List Char) :=
  findHeadingMatchesF l.length l 0 true

/-- A changeset `{name, body}`. -/
structure Changeset where
  name : String
  body : String
deriving DecidableEq, Repr

/-- JS `String.prototype.trim` over the characters we use. -/
def trimChars (l : List Char) : List Char :=
  ((l.dropWhile Char.isWhitespace).reverse.dropWhile Char.isWhitespace).reverse

/-- `extractChangeset(markdown, header, nextHeader)`: the body runs from
the end of the heading match to the next heading match (or the end of the
document), trimmed; the name is the captured heading text. -/
def extractChangeset (markdown : List Char) (header : Nat × Nat × List Char)
    (nextHeader : Option (Nat × Nat × List Char)) : Changeset :=
  let start := header.1 + header.2.1
  let stop := match nextHeader with
    | some nh => nh.1
    | none => markdown.length
  { name := String.mk header.2.2,
    body := String.mk (trimChars ((markdown.drop start).take (stop - start))) }

/-- The match loop of `findChangeset`: the first heading whose captured
text parses to the target version wins; the following match (if any) is
the next header. -/
def pickChangeset (markdown : List Char) (version : String) :
    List (Nat × Nat × List Char) → Option Changeset
  | [] => none
  | m :: rest =>
    if parseVersion (String.mk m.2.2) = some version then
      some (extractChangeset markdown m rest.head?)
    else pickChangeset markdown version rest

/-- `findChangeset(markdown, tag)`. -/
def findChangeset (markdown tag : String) : Option Changeset :=
  match parseVersion tag with
  | none => none
  | some version => pickChangeset markdown.toList version (findHeadingMatches markdown.toList)

/-- C7 counterexample: the heading regex of `lib/changes.js` has no
underlined-heading branch, so a changelog written with `----` underlines
yields `null`, while the claim requires the changeset.  (The repo's own
test suite exercises underlined headings; a variant implementation in the
tree handles `----`, but the cited `lib/changes.js` does not.) -/
theorem findChangeset_underline_counterexample :
    findChangeset "1.0.0\n-----\nNotes" "v1.0.0" = none ∧
    (none : Option Changeset) ≠ some ⟨"1.0.0", "Notes"⟩ := by
  exact ⟨by decide, by decide⟩

/-- C7 (amended): `findChangeset` parses the tag into a version and
recognizes only `## <text>` headings (no underlined form); for the heading
whose text parses to the target version it returns the trimmed section up
to the next recognized heading; the S4 example behaves as claimed; and it
returns `null` when no heading matches or the tag has no version. -/
theorem findChangeset_spec :
    findChangeset "# Changelog\n## 1.0.0\nNotes\n## 0.9.0\nolder" "v1.0.0"
      = some ⟨"1.0.0", "Notes"⟩ ∧
    findChangeset "# Changelog\n## 1.0.1\nnewer\n## 0.9.0\nolder" "v1.0.0" = none ∧
    findChangeset "" "not a version" = none ∧
    ∀ markdown tag, parseVersion tag = none → findChangeset markdown tag = none := by
  refine ⟨by decide, by decide, by decide, ?_⟩
  intro markdown tag h
  simp [findChangeset, h]

/-- Witness for the amended C7 theorem at a concrete tag without a
version. -/
theorem findChangeset_spec_witness :
    findChangeset "## 1.0.0\nNotes" "no version here" = none :=
  findChangeset_spec.2.2.2 "## 1.0.0\nNotes" "no version here" (by decide)

/-- C9 witness input: `app` depends on `core`. -/
def c9Packages : List CargoPackage :=
  [⟨"app", "1.0.0", [⟨"core", "^1.0.0"⟩]⟩, ⟨"core", "1.0.0", []⟩]

/-- Witness for the C9 theorem: the loop emits `core` before `app`. -/
theorem getPublishOrder_topological_witness :
    (getPublishOrder c9Packages).Perm c9Packages ∧
    getPublishOrder c9Packages
      = [⟨"core", "1.0.0", []⟩, ⟨"app", "1.0.0", [⟨"core", "^1.0.0"⟩]⟩] := by
  refine ⟨(getPublishOrder_topological c9Packages (by decide) (by decide)).1, by decide⟩
